import Mathlib

/-!
Verification of the Prism-derived tokenizer core of this repository.

The development shallowly embeds the engine of `prism.ts`:

* the token model (`Elem`),
* the grammar registry data (`Rule`, `GrammarObj`, grammar heap `GHeap`
  modelling the shared/cyclic JS object graph by indices),
* the matching engine `tokenize` / `matchGrammar` with its mutable span
  list, greedy multi-segment rematching, cause-guarded rematch recursion
  and the runaway-match safety valve,
* the registry utilities (`insertBefore` and `DFS` over a small JS object
  heap),
* the stringifier with `wrap` hooks, `highlight`, `highlightText`,
* the tsx tag-context walker `walkTokens`.

JavaScript regular expressions are abstracted into their `exec` behaviour;
`RuleWF` states the facts every real `RegExp` satisfies (the match is a
span inside the text, the lookbehind group is a prefix of the match, and a
global pattern — which every greedy rule is forced to be — matches at or
after `lastIndex`).

The mutually recursive loops of the engine are defunctionalised into the
single fuel-indexed interpreter `runF`, so that the recursion is structural
in the fuel and concrete executions reduce by `rfl`.  Running out of fuel
yields `none`; all general theorems are stated about completed (`some`)
runs, and divergence is expressed as `∀ fuel, run = none`.
-/

namespace PrismCode

/-- Characters of a JS string; text is modelled as a list of characters. -/
abbrev Chars := List Char

/-- One element of a token stream (and of the internal span list): either a
plain string segment or a finished `Token`.  The source's `Token` class
`{type, content, alias, length}` with `content : string | TokenStream` is
flattened into `tokS` (string content) and `tokL` (nested stream content);
`len` models `Token#length`, the length in input-string units of the full
matched text the token was created from. -/
inductive Elem : Type where
  | str (v : Chars)
  | tokS (ty : String) (content : Chars) (als : List String) (len : Nat)
  | tokL (ty : String) (content : List Elem) (als : List String) (len : Nat)

/-- The engine's `node.value.length`: string length for plain segments, the
`length` field for tokens. -/
def spanLen : Elem → Nat
  | .str v => v.length
  | .tokS _ _ _ n => n
  | .tokL _ _ _ n => n

/-- Total text span covered by a list of nodes. -/
def spans (L : List Elem) : Nat := (L.map spanLen).sum

/-- Whether a node holds a plain string (the `str instanceof Token` test,
negated). -/
def isStrElem : Elem → Bool
  | .str _ => true
  | _ => false

/-- Result of `RegExp#exec`: the match index, the matched text `match[0]`,
and the length of the first capture group `match[1]` (`0` when the group is
absent or empty), which Prism's `lookbehind` convention consumes. -/
structure MatchRes where
  index : Nat
  matched : Chars
  lb : Nat

/-- A grammar rule (`GrammarToken`).  The regular expression is abstracted
into its `exec` behaviour: `exec text lastIndex` returns the first match.
Greedy rules are rewritten by the source to carry the `g` flag before any
use, so their `exec` respects `lastIndex`; `RuleWF` records this.  `inside`
is a reference into the grammar heap, since grammar objects are shared
(possibly cyclically) through the registry. -/
structure Rule where
  exec : Chars → Nat → Option MatchRes
  lookbehind : Bool
  greedy : Bool
  als : List String
  inside : Option Nat

/-- Facts true of every JS `RegExp` match that the engine relies on: the
match lies inside the text, the lookbehind group is no longer than the
match, and a greedy (hence global) pattern matches at or after `lastIndex`. -/
def RuleWF (r : Rule) : Prop :=
  ∀ t pos m, r.exec t pos = some m →
    m.index + m.matched.length ≤ t.length ∧
    m.lb ≤ m.matched.length ∧
    (r.greedy = true → pos ≤ m.index)

/-- A grammar object: the insertion-ordered mapping from token-type name to
rules.  A `none` value models a falsy entry (skipped by `matchGrammar` via
`if (!grammar[token]) continue`); a plain `RegExp` value and a one-element
array both become a one-rule list.  The reserved `rest` key is kept apart. -/
structure GrammarObj where
  entries : List (String × Option (List Rule))
  rest : Option Nat

/-- The grammar heap: grammar references are indices into this list, which
lets distinct rules share — even cyclically — one grammar object, as the JS
object graph in `Prism.languages` does. -/
abbrev GHeap := List GrammarObj

/-- Every rule reachable from the heap has well-formed match behaviour. -/
def HeapWF (H : GHeap) : Prop :=
  ∀ g ∈ H, ∀ e ∈ g.entries, ∀ rs, e.2 = some rs → ∀ r ∈ rs, RuleWF r

/-- The source's `matchPattern(pattern, pos, text, lookbehind)`: run the
pattern with `lastIndex = pos` and apply the Prism lookbehind adjustment —
when the rule is a lookbehind rule and `match[1]` is nonempty, the captured
prefix is removed from the front of the match. -/
def matchPattern (r : Rule) (pos : Nat) (text : Chars) : Option MatchRes :=
  match r.exec text pos with
  | none => none
  | some m =>
    if r.lookbehind = true ∧ m.lb ≠ 0 then
      some ⟨m.index + m.lb, m.matched.drop m.lb, m.lb⟩
    else
      some m

/-- Walk forward from node index `i` (whose text offset is `pos`) to the
node containing text offset `tgt` — the `while (from >= p)` loop of the
greedy branch.  The first argument is the list suffix starting at `i`.
Returns the containing node's index and start offset; `none` models the
crash running off the end of the list would be in the source. -/
def findNode : List Elem → Nat → Nat → Nat → Option (Nat × Nat)
  | [], _, _, _ => none
  | e :: rest, i, pos, tgt =>
    if tgt < pos + spanLen e then some (i, pos)
    else findNode rest (i + 1) (pos + spanLen e) tgt

/-- The greedy branch's `removeCount` loop: starting at offset `p`, consume
nodes while `p < to` or the node holds a plain string; returns the number
of consumed nodes and the end offset reached. -/
def consume : List Elem → Nat → Nat → Nat × Nat
  | [], _, p => (0, p)
  | e :: rest, toOff, p =>
    if p < toOff ∨ isStrElem e = true then
      let r := consume rest toOff (p + spanLen e)
      (r.1 + 1, r.2)
    else (0, p)

/-- The splice's `if (before) addAfter(...)`: a string segment becomes a
node only when it is nonempty. -/
def optStr (s : Chars) : List Elem := if s = [] then [] else [.str s]

/-- The `removeRange`/`addAfter` cluster of a successful match: keep the
prefix before the match node, insert `before` when nonempty, then the new
Token, then `after` when nonempty, and drop the `removeCount` replaced
nodes. -/
def spliceNodes (L : List Elem) (i rc : Nat) (s : Chars) (f mlen : Nat)
    (tokEl : Elem) : List Elem :=
  L.take i ++ optStr (s.take f) ++ tokEl :: (optStr (s.drop (f + mlen)) ++ L.drop (i + rc))

/-- Overwrite-or-append assignment `grammar[token] = rest[token]`: an
existing key keeps its position, a new key is appended. -/
def putEntry (es : List (String × Option (List Rule))) (kv : String × Option (List Rule)) :
    List (String × Option (List Rule)) :=
  if es.any (fun e => e.1 = kv.1) then
    es.map (fun e => if e.1 = kv.1 then kv else e)
  else es ++ [kv]

/-- The `rest` handling at the top of `Prism.tokenize`: merge the `rest`
grammar's own entries into the grammar and drop the `rest` key.  (The
source does this by mutating the shared grammar object; only the merged
view feeds the tokenisation, so the merge is modelled functionally.) -/
def tokenizeEntries (H : GHeap) (gid : Nat) : List (String × Option (List Rule)) :=
  match H.get? gid with
  | none => []
  | some g =>
    match g.rest with
    | none => g.entries
    | some rid =>
      match H.get? rid with
      | none => g.entries
      | some rg => rg.entries.foldl putEntry g.entries

/-- The update `if (rematch && reach > rematch.reach) rematch.reach = reach`
on a rematch context `{cause, reach}`. -/
def bumpReach (rm : Option (String × Nat)) (reach : Nat) : Option (String × Nat) :=
  match rm with
  | none => none
  | some (c, rr) => if rr < reach then some (c, reach) else some (c, rr)

/-- The guard `rematch && rematch.cause === token + ',' + j`. -/
def causeIs (rm : Option (String × Nat)) (c : String) : Bool :=
  match rm with
  | none => false
  | some (c0, _) => c0 = c

/-- The guard `rematch && pos >= rematch.reach`. -/
def rmBound (rm : Option (String × Nat)) (pos : Nat) : Bool :=
  match rm with
  | none => false
  | some (_, rr) => rr ≤ pos

/-- Result of one engine call: the (possibly rewritten) span list, the
current rematch context (whose `reach` the engine mutates in place), and
whether a `return` was executed, aborting the enclosing `matchGrammar`
invocation. -/
structure WRes where
  L : List Elem
  rm : Option (String × Nat)
  ret : Bool

/-- The mutually recursive loops of the engine, defunctionalised so the
recursion is structural in one fuel argument:
`tok` is `Prism.tokenize`; `mg` is the token-type key loop of
`matchGrammar` (`esAll` is the whole grammar, used by nested rematch
invocations, `es` the keys still to process); `pats` is the inner pattern
loop of one key; `walk` is the node-walking loop of one rule; `splice` is
the shared replace-with-the-new-match tail of a successful match. -/
inductive MCall where
  | tok (gid : Nat) (text : Chars)
  | mg (text : Chars) (esAll es : List (String × Option (List Rule)))
      (L : List Elem) (si sp : Nat) (rm : Option (String × Nat))
  | pats (text : Chars) (esAll : List (String × Option (List Rule)))
      (key : String) (j : Nat) (rs : List Rule)
      (L : List Elem) (si sp : Nat) (rm : Option (String × Nat))
  | walk (text : Chars) (esAll : List (String × Option (List Rule)))
      (key : String) (j : Nat) (r : Rule)
      (L : List Elem) (i pos : Nat) (rm : Option (String × Nat))
  | splice (text : Chars) (esAll : List (String × Option (List Rule)))
      (key : String) (j : Nat) (r : Rule)
      (L : List Elem) (i pos : Nat) (rm : Option (String × Nat))
      (s : Chars) (f rc : Nat) (matched : Chars)

/-- The engine interpreter.  Each equation is a direct transcription of the
corresponding loop of `prism.ts`; `none` means the fuel ran out (or a state
the source would crash on was reached). -/
def runF (H : GHeap) : Nat → MCall → Option WRes
  | 0, _ => none
  | n+1, .tok gid text =>
    -- Prism.tokenize: rest merge, a fresh list holding the whole text,
    -- then matchGrammar(text, list, grammar, list.head, 0); the resulting
    -- list is the returned stream (toArray).
    let es := tokenizeEntries H gid
    match runF H n (.mg text es es [.str text] 0 0 none) with
    | none => none
    | some w => some ⟨w.L, none, false⟩
  | n+1, .mg text esAll es L si sp rm =>
    match es with
    | [] => some ⟨L, rm, false⟩
    | (_, none) :: rest =>
      -- `if (!grammar[token]) continue`
      runF H n (.mg text esAll rest L si sp rm)
    | (key, some rs) :: rest =>
      match runF H n (.pats text esAll key 0 rs L si sp rm) with
      | none => none
      | some w =>
        if w.ret then some ⟨w.L, w.rm, false⟩
        else runF H n (.mg text esAll rest w.L si sp w.rm)
  | n+1, .pats text esAll key j rs L si sp rm =>
    match rs with
    | [] => some ⟨L, rm, false⟩
    | r :: rest =>
      -- `if (rematch && rematch.cause === token + ',' + j) return`
      if causeIs rm (key ++ "," ++ toString j) then some ⟨L, rm, true⟩
      else
        match runF H n (.walk text esAll key j r L si sp rm) with
        | none => none
        | some w =>
          if w.ret then some ⟨w.L, w.rm, true⟩
          else runF H n (.pats text esAll key (j+1) rest w.L si sp w.rm)
  | n+1, .walk text esAll key j r L i pos rm =>
    match L.get? i with
    | none => some ⟨L, rm, false⟩            -- currentNode reached the list tail
    | some cur =>
      if rmBound rm pos then some ⟨L, rm, false⟩     -- rematch reach bound: break
      else if text.length < L.length then some ⟨L, rm, true⟩
        -- safety valve `tokenList.length > text.length`: ABORT
      else
        match cur with
        | .tokS a b c d =>
          runF H n (.walk text esAll key j r L (i+1) (pos + spanLen (.tokS a b c d)) rm)
        | .tokL a b c d =>
          runF H n (.walk text esAll key j r L (i+1) (pos + spanLen (.tokL a b c d)) rm)
        | .str s =>
          if r.greedy then
            match matchPattern r pos text with
            | none => some ⟨L, rm, false⟩                         -- break
            | some m =>
              if text.length ≤ m.index then some ⟨L, rm, false⟩   -- break
              else
                match findNode (L.drop i) i pos m.index with
                | none => none     -- the source would crash walking past the tail
                | some ip =>
                  match L.get? ip.1 with
                  | none => none
                  | some c2 =>
                    match c2 with
                    | .tokS a b c d =>
                      -- the match starts inside an existing Token: `continue`
                      runF H n (.walk text esAll key j r L (ip.1+1)
                        (ip.2 + spanLen (.tokS a b c d)) rm)
                    | .tokL a b c d =>
                      runF H n (.walk text esAll key j r L (ip.1+1)
                        (ip.2 + spanLen (.tokL a b c d)) rm)
                    | .str _ =>
                      let toOff := m.index + m.matched.length
                      let cr := consume (L.drop ip.1) toOff ip.2
                      -- `str = text.slice(pos, p); match.index -= pos`
                      runF H n (.splice text esAll key j r L ip.1 ip.2 rm
                        ((text.drop ip.2).take (cr.2 - ip.2))
                        (m.index - ip.2) cr.1 m.matched)
          else
            match matchPattern r 0 s with
            | none => runF H n (.walk text esAll key j r L (i+1) (pos + s.length) rm)
            | some m =>
              runF H n (.splice text esAll key j r L i pos rm s m.index 1 m.matched)
  | n+1, .splice text esAll key j r L i pos rm s f rc matched =>
    -- `before`/`after` around the match, reach bookkeeping, the splice
    -- itself, and the conditional rematch.
    let before := s.take f
    let reach := pos + s.length
    let rm1 := bumpReach rm reach
    let posTok := pos + before.length
    let idxTok := i + (optStr before).length
    let contentRes : Option Elem :=
      match r.inside with
      | none => some (.tokS key matched r.als matched.length)
      | some rid =>
        -- content = Prism.tokenize(matchStr, inside)
        match runF H n (.tok rid matched) with
        | none => none
        | some w => some (.tokL key w.L r.als matched.length)
    match contentRes with
    | none => none
    | some tokEl =>
      let L2 := spliceNodes L i rc s f matched.length tokEl
      if 1 < rc then
        -- at least one Token was removed: rematch with cause `<type>,<j>`
        -- from the new token's predecessor
        match runF H n (.mg text esAll esAll L2 idxTok posTok
            (some (key ++ "," ++ toString j, reach))) with
        | none => none
        | some w =>
          let rm2 := match w.rm with
            | some cr2 => bumpReach rm1 cr2.2
            | none => rm1
          runF H n (.walk text esAll key j r w.L (idxTok + 1) (posTok + matched.length) rm2)
      else
        runF H n (.walk text esAll key j r L2 (idxTok + 1) (posTok + matched.length) rm1)

/-- `Prism.tokenize(text, grammar)`: the observable token stream. -/
def tokenizeF (H : GHeap) (fuel : Nat) (gid : Nat) (text : Chars) : Option (List Elem) :=
  match runF H fuel (.tok gid text) with
  | none => none
  | some w => some w.L

/-!  The registry utilities `insertBefore` / `DFS` work on the JS object
graph reachable from `Prism.languages`, where reference identity (`===`)
decides what gets rewritten.  They are embedded over a small JS heap:
objects and arrays live at numbered addresses, and a `JVal` is a reference
or an opaque primitive. -/

/-- A JS value as the registry traversal sees it: a reference to an object,
a reference to an array, `undefined`, or any other primitive-ish value
(regexes, strings, functions), distinguished only by a tag. -/
inductive JVal : Type where
  | obj (id : Nat)
  | arr (id : Nat)
  | jsUndefined
  | prim (tag : Nat)
deriving DecidableEq

/-- The JS heap: objects are ordered field lists, arrays are value lists. -/
structure JHeap where
  objs : List (List (String × JVal))
  arrs : List (List JVal)

/-- Fields of the object at an address (empty for a dangling address). -/
def getObj (h : JHeap) (oid : Nat) : List (String × JVal) := (h.objs.get? oid).getD []

/-- Elements of the array at an address. -/
def getArr (h : JHeap) (aid : Nat) : List JVal := (h.arrs.get? aid).getD []

/-- Property read `o[k]`; a missing key is `undefined`. -/
def getField (h : JHeap) (oid : Nat) (k : String) : JVal :=
  match (getObj h oid).lookup k with
  | some v => v
  | none => .jsUndefined

/-- Property write `o[k] = v`: an existing key keeps its position, a new key
is appended (JS insertion order). -/
def setField (h : JHeap) (oid : Nat) (k : String) (v : JVal) : JHeap :=
  let fields := getObj h oid
  let fields2 :=
    if fields.any (fun e => e.1 = k) then
      fields.map (fun e => if e.1 = k then (k, v) else e)
    else fields ++ [(k, v)]
  { h with objs := h.objs.set oid fields2 }

/-- Member read during DFS: `o[i]` for an object or array container. -/
def readMember (h : JHeap) (container : JVal) (k : String) : JVal :=
  match container with
  | .obj oid => getField h oid k
  | .arr aid =>
    match k.toNat? with
    | some i => ((getArr h aid).get? i).getD .jsUndefined
    | none => .jsUndefined
  | _ => .jsUndefined

/-- The `Object.keys` snapshot a DFS visit iterates over (array indices are
their decimal strings, as JS keys are). -/
def memberKeys (h : JHeap) (container : JVal) : List String :=
  match container with
  | .obj oid => (getObj h oid).map (fun e => e.1)
  | .arr aid => ((getArr h aid).enum).map (fun e => toString e.1)
  | _ => []

/-- LanguageMethods.DFS: iterate the key snapshot of the container, invoke
the callback on each fresh member value (callbacks may mutate the heap),
and recurse into unvisited object/array members.  `visited` is keyed by
reference, exactly like the source's `visited` map.  The fuel is a
technical bound on the traversal (the source relies on `visited` instead);
the runs below never exhaust it. -/
def dfsJ (cb : JHeap → String → JVal → JHeap) :
    Nat → JHeap → JVal → List String → List JVal → JHeap × List JVal
  | 0, h, _, _, vis => (h, vis)
  | _+1, h, _, [], vis => (h, vis)
  | n+1, h, container, k :: rest, vis =>
    let h1 := cb h k (readMember h container k)
    let property := readMember h1 container k
    let hv :=
      match property with
      | .obj _ =>
        if vis.contains property then (h1, vis)
        else dfsJ cb n h1 property (memberKeys h1 property) (property :: vis)
      | .arr _ =>
        if vis.contains property then (h1, vis)
        else dfsJ cb n h1 property (memberKeys h1 property) (property :: vis)
      | _ => (h1, vis)
    dfsJ cb n hv.1 container rest hv.2

/-- The new ordered mapping built by insertBefore: walk the existing
grammar's keys; immediately before `before`, emit all of `insert`; suppress
existing keys that `insert` also defines. -/
def buildRet (gFields : List (String × JVal)) (before : String)
    (ins : List (String × JVal)) : List (String × JVal) :=
  gFields.foldl
    (fun acc kv =>
      let acc2 := if kv.1 = before then acc ++ ins else acc
      if ins.any (fun e => e.1 = kv.1) then acc2 else acc2 ++ [kv])
    []

/-- LanguageMethods.insertBefore: build the new mapping, store it at a fresh
address, update `root[inside]`, then run the DFS from `Prism.languages`
(object `langsId`) with the source's arrow-function callback — which, on
finding a value identical to the old mapping under a key other than
`inside`, assigns `Prism.languages[key] = ret` (the arrow function ignores
the `call` receiver, so the write always targets the top-level registry
object).  Returns the heap and the new mapping's address. -/
def insertBeforeJ (fuel : Nat) (h : JHeap) (langsId : Nat)
    (inside before : String) (ins : List (String × JVal)) (rootId : Nat) :
    JHeap × Nat :=
  let grammarV := getField h rootId inside
  let gFields := match grammarV with | .obj gid => getObj h gid | _ => []
  let retId := h.objs.length
  let h1 : JHeap := { h with objs := h.objs ++ [buildRet gFields before ins] }
  let old := getField h1 rootId inside
  let h2 := setField h1 rootId inside (.obj retId)
  let cb : JHeap → String → JVal → JHeap := fun hh k v =>
    if v = old ∧ k ≠ inside then setField hh langsId k (.obj retId) else hh
  let h3 := (dfsJ cb fuel h2 (.obj langsId) (memberKeys h2 (.obj langsId)) []).1
  (h3, retId)

/-!  The tsx Tag-Context Walker (`walkTokens` of prism-lang-tsx.ts). -/

/-- stringifyToken: a string is itself, a token with string content is that
string, a token with stream content is the concatenation of its elements. -/
def stringifyTok : Nat → Elem → Chars
  | 0, _ => []
  | _+1, .str s => s
  | _+1, .tokS _ c _ _ => c
  | n+1, .tokL _ cs _ _ => (cs.map (stringifyTok n)).flatten

/-- The `.type` property (strings have none). -/
def elemTy : Elem → Option String
  | .str _ => none
  | .tokS t _ _ _ => some t
  | .tokL t _ _ _ => some t

/-- The test `x.content === s` for a literal string `s`: only a token whose
content is that very string passes (a plain string has no `.content`, and an
array is never `===` a string). -/
def contentEq : Elem → Chars → Bool
  | .tokS _ c _ _, s => c = s
  | _, _ => false

/-- The guard `token.type === 'tag' && token.content[0] &&
token.content[0].type === 'tag'`, returning the first nested element. -/
def tagFirstInner : Elem → Option Elem
  | .tokL ty (c0 :: _) _ _ =>
    if ty = "tag" ∧ elemTy c0 = some "tag" then some c0 else none
  | _ => none

/-- The closing-tag test `((token.content)[0].content)[0].content === '</'`. -/
def isClosingInner : Elem → Bool
  | .tokL _ (d0 :: _) _ _ => contentEq d0 "</".data
  | _ => false

/-- The tag name `stringifyToken(((token.content)[0].content)[1])`; an
absent element stringifies to the empty string, and indexing into a string
content yields the one-character string at that position. -/
def tagNameOf (fuel : Nat) (c0 : Elem) : Chars :=
  match c0 with
  | .tokL _ cs _ _ =>
    match cs.get? 1 with
    | some e => stringifyTok fuel e
    | none => []
  | .tokS _ c _ _ =>
    match c.get? 1 with
    | some ch => [ch]
    | none => []
  | .str _ => []

/-- The self-closing test
`(token.content)[token.content.length - 1].content === '/>'`. -/
def lastContentIsSelfClose : Elem → Bool
  | .tokL _ cs _ _ =>
    match cs.getLast? with
    | some e => contentEq e "/>".data
    | none => false
  | _ => false

/-- A punctuation token with the given literal content. -/
def isPunct (e : Elem) (s : Chars) : Bool :=
  elemTy e = some "punctuation" && contentEq e s

/-- Merge eligibility `typeof x === 'string' || x.type === 'plain-text'`. -/
def strOrPT : Elem → Bool
  | .str _ => true
  | e => elemTy e = some "plain-text"

/-- The loop of walkTokens over one stream.  `opened` is the openedTags
stack (top first), `prevRev` the processed prefix in reverse.  Each arm is
the corresponding branch of the source; the splices around `tokens[i]`
become zipper operations.  When a token is replaced by the merged
plain-text token, the source's recursive `walkTokens(token.content)` call
mutates a spliced-out object, so its effect is dropped, as it is invisible
in the resulting stream. -/
def wtLoop : Nat → List (Chars × Nat) → List Elem → List Elem → List Elem
  | 0, _, prevRev, rest => prevRev.reverse ++ rest
  | _+1, _, prevRev, [] => prevRev.reverse
  | n+1, opened, prevRev, token :: rest =>
    let step : List (Chars × Nat) × Bool :=
      match token with
      | .str _ => (opened, false)
      | _ =>
        match tagFirstInner token with
        | some c0 =>
          if isClosingInner c0 then
            match opened with
            | [] => (opened, false)
            | (tn, b) :: tl =>
              if tn = tagNameOf n c0 then (tl, false) else ((tn, b) :: tl, false)
          else if lastContentIsSelfClose token then (opened, false)
          else ((tagNameOf n c0, 0) :: opened, false)
        | none =>
          match opened with
          | [] => (opened, true)
          | (tn, b) :: tl =>
            if isPunct token ['{'] then ((tn, b + 1) :: tl, false)
            else if 0 < b ∧ isPunct token ['}'] = true then ((tn, b - 1) :: tl, false)
            else ((tn, b) :: tl, true)
    let opened1 := step.1
    let merged : Bool × List Elem × List Elem × Elem :=
      if (step.2 || isStrElem token) &&
          (match opened1 with
           | (_, 0) :: _ => true
           | _ => false) then
        let pt0 := stringifyTok n token
        let pr : Chars × List Elem :=
          match rest with
          | next :: rtl =>
            if strOrPT next then (pt0 ++ stringifyTok n next, rtl) else (pt0, next :: rtl)
          | [] => (pt0, [])
        let pl : Chars × List Elem :=
          match prevRev with
          | pv :: ptl =>
            if strOrPT pv then (stringifyTok n pv ++ pr.1, ptl) else (pr.1, pv :: ptl)
          | [] => (pr.1, [])
        (true, pl.2, pr.2, .tokS "plain-text" pl.1 [] pl.1.length)
      else (false, prevRev, rest, token)
    let cur :=
      if merged.1 then merged.2.2.2
      else
        match token with
        | .tokL ty cs als len => .tokL ty (wtLoop n [] [] cs) als len
        | _ => token
    wtLoop n opened1 (cur :: merged.2.1) merged.2.2.1

/-- walkTokens(tokens): a fresh openedTags stack per invocation. -/
def walkTokensF (fuel : Nat) (tokens : List Elem) : List Elem :=
  wtLoop fuel [] [] tokens

/-!  util.encode, Token.stringify, Prism.highlight and highlightText. -/

/-- The escaping `util.encode` applies to every plain string. -/
def escHtml (s : Chars) : Chars :=
  s.flatMap (fun c =>
    if c = '&' then "&amp;".data
    else if c = '<' then "&lt;".data
    else if c = '\u00A0' then [' ']
    else [c])

/-- util.encode on one element: strings are escaped; a token is rebuilt
with encoded content and the same type and alias (the constructor's
`matchedStr` is not forwarded, so encoded tokens carry length 0). -/
def encodeE : Nat → Elem → Elem
  | 0, e => e
  | _+1, .str s => .str (escHtml s)
  | _+1, .tokS ty c als _ => .tokS ty (escHtml c) als 0
  | n+1, .tokL ty cs als _ => .tokL ty (cs.map (encodeE n)) als 0

/-- The render environment a `wrap` hook receives and may mutate. -/
structure WrapEnv where
  ty : String
  content : String
  tag : String
  classes : List String
  attributes : List (String × String)
  language : String

/-- The attribute-value escaping `value.replace(/"/g, '&quot;')`. -/
def escQuot (s : String) : String :=
  String.mk (s.data.flatMap (fun c => if c = '"' then "&quot;".data else [c]))

/-- The Token branch of Token.stringify: build the render environment with
classes `["token", type, ...alias]`, run the wrap hooks, then render the
attributes and the tag around the (already stringified) content. -/
def renderTok (wrapHooks : List (WrapEnv → WrapEnv)) (language ty content2 : String)
    (als : List String) : String :=
  let env0 : WrapEnv := ⟨ty, content2, "span", ["token", ty] ++ als, [], language⟩
  let env := wrapHooks.foldl (fun e f => f e) env0
  let attrs := env.attributes.foldl
    (fun acc kv => acc ++ " " ++ kv.1 ++ "=\"" ++ escQuot kv.2 ++ "\"") ""
  "<" ++ env.tag ++ " class=\"" ++ String.intercalate " " env.classes ++ "\"" ++ attrs ++
    ">" ++ env.content ++ "</" ++ env.tag ++ ">"

/-- Token.stringify on one element. -/
def stringifyE (wrapHooks : List (WrapEnv → WrapEnv)) (language : String) :
    Nat → Elem → String
  | 0, _ => ""
  | _+1, .str s => String.mk s
  | _+1, .tokS ty c als _ => renderTok wrapHooks language ty (String.mk c) als
  | n+1, .tokL ty cs als _ =>
    renderTok wrapHooks language ty
      (String.join (cs.map (stringifyE wrapHooks language n))) als

/-- Token.stringify on a stream (the array case: concatenation). -/
def stringifyStream (wrapHooks : List (WrapEnv → WrapEnv)) (language : String)
    (fuel : Nat) (ts : List Elem) : String :=
  String.join (ts.map (stringifyE wrapHooks language fuel))

/-- The hook environment of Prism.highlight: code, grammar reference (or
absent), language name and — once tokenised — the token stream.  The
`before-tokenize` and `after-tokenize` hook lists mutate it. -/
structure HEnv where
  code : Chars
  grammar : Option Nat
  language : String
  tokens : List Elem

/-- The message of the configuration error Prism.highlight throws. -/
def noGrammarMsg (language : String) : String :=
  "Prism.highlight failed: No grammar found for language \"" ++ language ++ "\"."

/-- hooks.run: invoke the registered callbacks in order on the mutable
environment. -/
def applyHooks (hs : List (HEnv → HEnv)) (e : HEnv) : HEnv :=
  hs.foldl (fun a f => f a) e

/-- Prism.highlight: run the `before-tokenize` hooks, throw the
configuration error when the grammar is absent, otherwise tokenize, run the
`after-tokenize` hooks, and stringify the encoded stream.  `Except.error`
models the thrown Error; `none` is fuel exhaustion inside `tokenize`. -/
def highlightF (H : GHeap) (fuel : Nat)
    (beforeHooks afterHooks : List (HEnv → HEnv))
    (wrapHooks : List (WrapEnv → WrapEnv))
    (text : Chars) (grammar : Option Nat) (language : String) :
    Option (Except String String) :=
  let env := applyHooks beforeHooks ⟨text, grammar, language, []⟩
  match env.grammar with
  | none => some (.error (noGrammarMsg env.language))
  | some gid =>
    match runF H fuel (.tok gid env.code) with
    | none => none
    | some w =>
      let env2 := applyHooks afterHooks { env with tokens := w.L }
      some (.ok (stringifyStream wrapHooks env2.language fuel
        (env2.tokens.map (encodeE fuel))))

/-- The `Prism.languages[language]` lookup as highlightText performs it: a
missing or falsy entry yields no grammar. -/
def lookupLang (langs : List (String × Option Nat)) (language : String) : Option Nat :=
  match langs.lookup language with
  | some (some gid) => some gid
  | _ => none

/-- highlightText of index.ts: look the language up in the registry; if a
grammar is registered, delegate to Prism.highlight, otherwise return the
input text unchanged. -/
def highlightTextF (H : GHeap) (fuel : Nat)
    (beforeHooks afterHooks : List (HEnv → HEnv))
    (wrapHooks : List (WrapEnv → WrapEnv))
    (langs : List (String × Option Nat)) (text : Chars) (language : String) :
    Option (Except String String) :=
  match lookupLang langs language with
  | some gid => highlightF H fuel beforeHooks afterHooks wrapHooks text (some gid) language
  | none => some (.ok (String.mk text))

/-!  Concrete scenario data: executable `exec` functions for the regular
expressions of the spec's scenarios, and the grammars, heaps and streams the
claims evaluate. -/

/-- Word characters of the `\w` class. -/
def isWordChar (c : Char) : Bool := c.isAlphanum || c = '_'

/-- Scan for `\w+` from `lastIndex`: the first maximal run of word
characters at or after `pos`. -/
def wordScan : Chars → Nat → Nat → Option MatchRes
  | [], _, _ => none
  | c :: rest, idx, pos =>
    if idx < pos then wordScan rest (idx+1) pos
    else if isWordChar c then some ⟨idx, c :: rest.takeWhile isWordChar, 0⟩
    else wordScan rest (idx+1) pos

/-- exec of the pattern `\w+`. -/
def wordExec (t : Chars) (pos : Nat) : Option MatchRes := wordScan t 0 pos

/-- Try `\w+\s\w+` anchored at the front of the text: a maximal word run,
one whitespace character, a maximal word run (the backtracking of `\w+`
cannot help since `\w` and `\s` are disjoint). -/
def phraseTry (t : Chars) : Option Chars :=
  let r1 := t.takeWhile isWordChar
  if r1 = [] then none
  else
    match t.drop r1.length with
    | [] => none
    | c :: rest2 =>
      if c.isWhitespace then
        let r2 := rest2.takeWhile isWordChar
        if r2 = [] then none else some (r1 ++ c :: r2)
      else none

/-- Scan for `\w+\s\w+` from `lastIndex`. -/
def phraseScan : Chars → Nat → Nat → Option MatchRes
  | [], _, _ => none
  | c :: rest, idx, pos =>
    if idx < pos then phraseScan rest (idx+1) pos
    else
      match phraseTry (c :: rest) with
      | some m => some ⟨idx, m, 0⟩
      | none => phraseScan rest (idx+1) pos

/-- exec of the pattern `\w+\s\w+` (with the `g` flag the engine forces on
greedy rules). -/
def phraseExec (t : Chars) (pos : Nat) : Option MatchRes := phraseScan t 0 pos

/-- Scan for the literal pattern `x` from `lastIndex`. -/
def xScan : Chars → Nat → Nat → Option MatchRes
  | [], _, _ => none
  | c :: rest, idx, pos =>
    if idx < pos then xScan rest (idx+1) pos
    else if c = 'x' then some ⟨idx, ['x'], 0⟩
    else xScan rest (idx+1) pos

/-- The rule `word: /\w+/`. -/
def wordRule : Rule := ⟨wordExec, false, false, [], none⟩

/-- The rule `phrase: {pattern: /\w+\s\w+/, greedy: true}`. -/
def phraseRule : Rule := ⟨phraseExec, false, true, [], none⟩

/-- The grammar `{"word": /\w+/, "phrase": {pattern: /\w+\s\w+/, greedy:
true}}` of the greedy-rematch scenario, at heap address 0. -/
def H4 : GHeap := [⟨[("word", some [wordRule]), ("phrase", some [phraseRule])], none⟩]

/-- The rule `/x/`. -/
def xRule : Rule := ⟨fun t pos => xScan t 0 pos, false, false, [], none⟩

/-- The grammar `{"a": /x/, "b": /x/}` of the rule-order scenario, at heap
address 0. -/
def H8 : GHeap := [⟨[("a", some [xRule]), ("b", some [xRule])], none⟩]

/-- A registry holding only the empty plaintext grammar. -/
def H0 : GHeap := [⟨[], none⟩]

/-- exec matching the whole (nonempty) text at position 0. -/
def allExec (t : Chars) (_pos : Nat) : Option MatchRes :=
  match t with
  | [] => none
  | c :: rest => some ⟨0, c :: rest, 0⟩

/-- A rule whose `inside` grammar is the grammar containing it — the
self-recursive grammar object the source's documentation warns can cause
infinite recursion. -/
def cycRule : Rule := ⟨allExec, false, false, [], some 0⟩

/-- The cyclic grammar `g = {"self": {pattern: /[^]+/, inside: g}}`. -/
def Hcyc : GHeap := [⟨[("self", some [cycRule])], none⟩]

/-- The stream `tokenize("ab cd", H4)` actually produces. -/
def c4Stream : List Elem :=
  [.tokS "word" "ab".data [] 2, .str " ".data, .tokS "word" "cd".data [] 2]

/-- The nested `tag` token `<Foo` of the walker scenario (punctuation
marker plus tag name, as the markup grammar's `tag.inside` produces). -/
def innerOpenFoo : Elem :=
  .tokL "tag" [.tokS "punctuation" "<".data [] 1, .str "Foo".data] [] 4

/-- The `script` token for the attribute value `={1}`. -/
def scriptTokC7 : Elem :=
  .tokL "script"
    [.tokS "script-punctuation" "=".data ["punctuation"] 1,
     .tokS "punctuation" "\x7b".data [] 1,
     .tokS "number" "1".data [] 1,
     .tokS "punctuation" "\x7d".data [] 1] ["language-typescript"] 4

/-- The `tag` token for `<Foo bar={1}>`. -/
def openFooTag : Elem :=
  .tokL "tag"
    [innerOpenFoo, .str " ".data, .tokS "attr-name" "bar".data [] 3,
     scriptTokC7, .tokS "punctuation" ">".data [] 1] [] 13

/-- The `tag` token for `</Foo>`. -/
def closeFooTag : Elem :=
  .tokL "tag"
    [.tokL "tag" [.tokS "punctuation" "</".data [] 2, .str "Foo".data] [] 5,
     .tokS "punctuation" ">".data [] 1] [] 6

/-- The top-level stream of `<Foo bar={1}> some text {expr} </Foo>`: the
open tag, the tag-body text, the braced expression region tokenized under
the expression grammar (`expr` is a plain identifier, hence a string), and
the closing tag. -/
def fooStream : List Elem :=
  [openFooTag, .str " some text ".data,
   .tokS "punctuation" "\x7b".data [] 1, .str "expr".data, .tokS "punctuation" "\x7d".data [] 1,
   .str " ".data, closeFooTag]

/-- The stream fooStream is rewritten to: the tag-body texts become
merged `plain-text` tokens, everything else is untouched. -/
def fooStreamWalked : List Elem :=
  [openFooTag, .tokS "plain-text" " some text ".data [] 11,
   .tokS "punctuation" "\x7b".data [] 1, .str "expr".data, .tokS "punctuation" "\x7d".data [] 1,
   .tokS "plain-text" " ".data [] 1, closeFooTag]

/-- A stream holding the self-closing tag `<Bar />` followed by text: no
open-tag context may be pushed, so the following text stays untouched. -/
def barStream : List Elem :=
  [.tokL "tag"
     [.tokL "tag" [.tokS "punctuation" "<".data [] 1, .str "Bar".data] [] 4,
      .str " ".data, .tokS "punctuation" "/>".data [] 2] [] 7,
   .str "after".data]

/-- The registry object graph of the insertBefore scenario:
object 0 is `Prism.languages` with entries `markup ↦ obj 1` and
`x ↦ obj 2`; object 1 is the markup grammar `{k1: R}`; object 2 is the
language `x` whose `tag` slot (object 3) holds `inside ↦ obj 1` — a nested
alias of the markup grammar, like a language's `tag.inside` referencing
another language's root grammar. -/
def H3init : JHeap :=
  { objs := [
      [("markup", .obj 1), ("x", .obj 2)],
      [("k1", .prim 0)],
      [("tag", .obj 3)],
      [("inside", .obj 1)]],
    arrs := [] }

/-- Run `insertBefore('markup', 'k1', {ins: R2})` on that registry. -/
def c3Result : JHeap × Nat :=
  insertBeforeJ 100 H3init 0 "markup" "k1" [("ins", .prim 7)] 0

/-- No two adjacent nodes are both plain strings. -/
def NoAdjStr (L : List Elem) : Prop :=
  List.Chain' (fun a b => ¬(isStrElem a = true ∧ isStrElem b = true)) L

/-- No node is an empty string. -/
def NoEmptyStr (L : List Elem) : Prop := ∀ s, Elem.str s ∈ L → s ≠ []

/-- The structural invariant matchGrammar maintains on the span list of a
text `t`: the node spans cover exactly the text, no two string nodes are
adjacent, and — for nonempty text — no node is an empty string. -/
def Inv (t : Chars) (L : List Elem) : Prop :=
  spans L = t.length ∧ NoAdjStr L ∧ (t ≠ [] → NoEmptyStr L)

/-- All rules of an entry list have well-formed match behaviour. -/
def EntriesWF (es : List (String × Option (List Rule))) : Prop :=
  ∀ e ∈ es, ∀ rs, e.2 = some rs → ∀ r ∈ rs, RuleWF r

/-- What one engine call preserves of the list it starts in at node index
`k`: everything before `k` is untouched, and when the node at `k` is a
finished Token, that node is untouched too (matches never start inside an
existing Token). -/
def PresPost (L : List Elem) (k : Nat) (L2 : List Elem) : Prop :=
  L2.take k = L.take k ∧
  (∀ e, L.get? k = some e → isStrElem e = false → L2.take (k+1) = L.take (k+1))

/-!  Theorems. -/

/-- C8: Declaration-order priority — tokenizing "x" with the grammar
`{"a": /x/, "b": /x/}` produces a stream with exactly one Token, of type
"a": the earlier key consumes the span, which becomes a Token the later
rule skips. -/
theorem declaration_order_priority :
    tokenizeF H8 50 0 ['x'] = some [.tokS "a" ['x'] [] 1] := rfl

/-- C4 counterexample: tokenizing "ab cd" with `{"word": /\w+/, "phrase":
{pattern: /\w+\s\w+/, greedy: true}}` does not yield a single "phrase"
token — the actual stream has three elements and contains no "phrase"
token at all. -/
theorem greedy_phrase_claim_counterexample :
    tokenizeF H4 200 0 "ab cd".data = some c4Stream ∧
    c4Stream.length = 3 ∧
    c4Stream.all (fun e => elemTy e != some "phrase") = true :=
  ⟨rfl, rfl, rfl⟩

/-- C4 (amended): tokenizing "ab cd" with that grammar yields the stream
`[word("ab"), " ", word("cd")]`: the greedy "phrase" rule is scanned only
from positions not already consumed by the earlier "word" key, and from
offset 2 (the sole remaining plain segment) `/\w+\s\w+/` has no match, so
the word tokens are left intact. -/
theorem greedy_phrase_actual_stream :
    tokenizeF H4 200 0 "ab cd".data =
      some [.tokS "word" "ab".data [] 2, .str " ".data, .tokS "word" "cd".data [] 2] := rfl

/-- C7: Tag-Context Walker — walking the stream of
`<Foo bar={1}> some text {expr} </Foo>` turns the tag-body texts into
single merged `plain-text` tokens, leaves the `{expr}` region tokenized
under the expression grammar untouched, and a self-closing `<Bar />` pushes
no open-tag context (the text after it is untouched). -/
theorem tag_walker_scenario :
    walkTokensF 60 fooStream = fooStreamWalked ∧
    walkTokensF 60 barStream = barStream :=
  ⟨rfl, rfl⟩

/-- C3: after `insertBefore('markup', 'k1', …)` on a registry where
`languages.x.tag.inside` aliases the markup grammar (object 1), the new
mapping is object 4 and `languages.markup` points to it — but the nested
`x.tag.inside` slot still references the OLD object 1, and a spurious
top-level `languages.inside` entry pointing at the new mapping has
appeared: the DFS callback is an arrow function whose write targets
`Prism.languages[key]` instead of the containing object's slot. -/
theorem insertBefore_nested_reference_stale :
    c3Result.2 = 4 ∧
    getObj c3Result.1 3 = [("inside", JVal.obj 1)] ∧
    getField c3Result.1 0 "markup" = JVal.obj 4 ∧
    getField c3Result.1 0 "inside" = JVal.obj 4 :=
  ⟨rfl, rfl, rfl, rfl⟩

/-- C5 (amended): the self-retrigger refusal — a `matchGrammar` invocation
whose rematch cause equals the tag `<type>,<ruleIndex>` of the rule it is
about to try returns immediately, before any matching, leaving the span
list untouched. -/
theorem rematch_cause_refusal (H : GHeap) (n : Nat) (text : Chars)
    (esAll : List (String × Option (List Rule))) (key : String) (j : Nat)
    (r : Rule) (rs : List Rule) (L : List Elem) (si sp rr : Nat) :
    runF H (n+1) (.pats text esAll key j (r :: rs) L si sp
      (some (key ++ "," ++ toString j, rr))) =
    some ⟨L, some (key ++ "," ++ toString j, rr), true⟩ := by
  simp [runF, causeIs]

/-- C5 helper: the self-recursive grammar `Hcyc` makes `tokenize("a")`
diverge — the nested `inside` tokenization of the full match recreates the
very same call, so no amount of fuel completes the run. -/
theorem cyc_diverges (n : Nat) :
    runF Hcyc n (.tok 0 ['a']) = none ∧
    runF Hcyc n (.mg ['a'] [("self", some [cycRule])] [("self", some [cycRule])]
      [.str ['a']] 0 0 none) = none ∧
    runF Hcyc n (.pats ['a'] [("self", some [cycRule])] "self" 0 [cycRule]
      [.str ['a']] 0 0 none) = none ∧
    runF Hcyc n (.walk ['a'] [("self", some [cycRule])] "self" 0 cycRule
      [.str ['a']] 0 0 none) = none ∧
    runF Hcyc n (.splice ['a'] [("self", some [cycRule])] "self" 0 cycRule
      [.str ['a']] 0 0 none ['a'] 0 1 ['a']) = none := by
  induction n with
  | zero => exact ⟨rfl, rfl, rfl, rfl, rfl⟩
  | succ n ih =>
    obtain ⟨ih1, ih2, ih3, ih4, ih5⟩ := ih
    refine ⟨?_, ?_, ?_, ?_, ?_⟩
    · simp only [runF]
      rw [show tokenizeEntries Hcyc 0 = [("self", some [cycRule])] from rfl, ih2]
    · simp only [runF, ih3]
    · simp only [runF, ih4, causeIs]
      rfl
    · exact ih5
    · simp only [runF, show cycRule.inside = some 0 from rfl, ih1]

/-- C5 counterexample: tokenize does not terminate for every input text
and grammar — with the self-recursive grammar the source itself warns
about ("Note: This can cause infinite recursion."), tokenizing the text
"a" never completes: no fuel bound (1000 shown concretely, and every
other) suffices. -/
theorem tokenize_termination_counterexample :
    tokenizeF Hcyc 1000 0 ['a'] = none ∧
    (∀ fuel, tokenizeF Hcyc fuel 0 ['a'] = none) := by
  constructor
  · simp only [tokenizeF, (cyc_diverges 1000).1]
  · intro fuel
    simp only [tokenizeF, (cyc_diverges fuel).1]

/-- Once the span list is longer than the text, every engine loop returns
it unchanged: the valve check precedes any matching, and its `return`
propagates, so no further splice happens anywhere. -/
theorem valve_unchanged (H : GHeap) (n : Nat) :
    (∀ t esA es L si sp rm w, runF H n (.mg t esA es L si sp rm) = some w →
      t.length < L.length → w.L = L ∧ w.rm = rm) ∧
    (∀ t esA key j rs L si sp rm w, runF H n (.pats t esA key j rs L si sp rm) = some w →
      t.length < L.length → w.L = L ∧ w.rm = rm) ∧
    (∀ t esA key j r L i pos rm w, runF H n (.walk t esA key j r L i pos rm) = some w →
      t.length < L.length → w.L = L ∧ w.rm = rm) := by
  induction n with
  | zero =>
    refine ⟨?_, ?_, ?_⟩
    · intro t esA es L si sp rm w h _; simp [runF] at h
    · intro t esA key j rs L si sp rm w h _; simp [runF] at h
    · intro t esA key j r L i pos rm w h _; simp [runF] at h
  | succ n ih =>
    obtain ⟨ihmg, ihpats, ihwalk⟩ := ih
    refine ⟨?_, ?_, ?_⟩
    · intro t esA es L si sp rm w h hlen
      match es with
      | [] =>
        simp only [runF] at h
        obtain rfl := Option.some.inj h
        exact ⟨rfl, rfl⟩
      | (k, none) :: rest =>
        simp only [runF] at h
        exact ihmg t esA rest L si sp rm w h hlen
      | (k, some rs) :: rest =>
        simp only [runF] at h
        cases hp : runF H n (.pats t esA k 0 rs L si sp rm) with
        | none => rw [hp] at h; exact Option.noConfusion h
        | some w1 =>
          simp only [hp] at h
          obtain ⟨e1, e2⟩ := ihpats t esA k 0 rs L si sp rm w1 hp hlen
          by_cases hr : w1.ret = true
          · rw [if_pos hr] at h
            obtain rfl := Option.some.inj h
            exact ⟨e1, e2⟩
          · rw [if_neg hr] at h
            rw [e1, e2] at h
            exact ihmg t esA rest L si sp rm w h hlen
    · intro t esA key j rs L si sp rm w h hlen
      match rs with
      | [] =>
        simp only [runF] at h
        obtain rfl := Option.some.inj h
        exact ⟨rfl, rfl⟩
      | r :: rest =>
        simp only [runF] at h
        by_cases hc : causeIs rm (key ++ "," ++ toString j) = true
        · rw [if_pos hc] at h
          obtain rfl := Option.some.inj h
          exact ⟨rfl, rfl⟩
        · rw [if_neg hc] at h
          cases hw1 : runF H n (.walk t esA key j r L si sp rm) with
          | none => rw [hw1] at h; exact Option.noConfusion h
          | some w1 =>
            simp only [hw1] at h
            obtain ⟨e1, e2⟩ := ihwalk t esA key j r L si sp rm w1 hw1 hlen
            by_cases hr : w1.ret = true
            · rw [if_pos hr] at h
              obtain rfl := Option.some.inj h
              exact ⟨e1, e2⟩
            · rw [if_neg hr] at h
              rw [e1, e2] at h
              exact ihpats t esA key (j+1) rest L si sp rm w h hlen
    · intro t esA key j r L i pos rm w h hlen
      simp only [runF] at h
      cases hg : L.get? i with
      | none =>
        simp only [hg] at h
        obtain rfl := Option.some.inj h
        exact ⟨rfl, rfl⟩
      | some cur =>
        simp only [hg] at h
        by_cases hb : rmBound rm pos = true
        · rw [if_pos hb] at h
          obtain rfl := Option.some.inj h
          exact ⟨rfl, rfl⟩
        · rw [if_neg hb, if_pos hlen] at h
          obtain rfl := Option.some.inj h
          exact ⟨rfl, rfl⟩

/-- C6: runaway-match safety valve — whenever the span list's node count
exceeds the input text's length, the matchGrammar invocation aborts: the
list it returns is exactly the list it was given (the partial stream built
so far), no error is raised, and the rematch context is untouched. -/
theorem runaway_valve_abort (H : GHeap) (n : Nat) (t : Chars)
    (esA es : List (String × Option (List Rule))) (L : List Elem) (si sp : Nat)
    (rm : Option (String × Nat)) (w : WRes)
    (h : runF H n (.mg t esA es L si sp rm) = some w)
    (hlen : t.length < L.length) : w.L = L ∧ w.rm = rm :=
  (valve_unchanged H n).1 t esA es L si sp rm w h hlen

/-- Witness for C6 at a concrete overfull list. -/
theorem runaway_valve_abort_witness :
    runF H8 5 (.mg [] [("a", some [xRule]), ("b", some [xRule])]
      [("a", some [xRule]), ("b", some [xRule])] [.str ['q']] 0 0 none) =
      some ⟨[.str ['q']], none, false⟩ ∧
    ([] : Chars).length < [Elem.str ['q']].length ∧
    (⟨[.str ['q']], none, false⟩ : WRes).L = [.str ['q']] :=
  ⟨rfl, by decide,
    (runaway_valve_abort H8 5 [] [("a", some [xRule]), ("b", some [xRule])]
      [("a", some [xRule]), ("b", some [xRule])] [.str ['q']] 0 0 none
      ⟨[.str ['q']], none, false⟩ rfl (by decide)).1⟩

/-- C9: Prism.highlight raises the configuration error naming the language
(as the before-tokenize hooks left it) exactly when the grammar after those
hooks is absent; otherwise it tokenizes the hook-rewritten code, runs the
after-tokenize hooks, and returns the stringified rendering of the encoded
stream without raising. -/
theorem highlight_error_iff (H : GHeap) (fuel : Nat)
    (bh ah : List (HEnv → HEnv)) (wh : List (WrapEnv → WrapEnv))
    (text : Chars) (grammar : Option Nat) (language : String) :
    ((applyHooks bh ⟨text, grammar, language, []⟩).grammar = none →
      highlightF H fuel bh ah wh text grammar language =
        some (.error (noGrammarMsg (applyHooks bh ⟨text, grammar, language, []⟩).language))) ∧
    (∀ m, highlightF H fuel bh ah wh text grammar language = some (.error m) →
      (applyHooks bh ⟨text, grammar, language, []⟩).grammar = none ∧
      m = noGrammarMsg (applyHooks bh ⟨text, grammar, language, []⟩).language) ∧
    (∀ gid w, (applyHooks bh ⟨text, grammar, language, []⟩).grammar = some gid →
      runF H fuel (.tok gid (applyHooks bh ⟨text, grammar, language, []⟩).code) = some w →
      highlightF H fuel bh ah wh text grammar language =
        some (.ok (stringifyStream wh
          (applyHooks ah { applyHooks bh ⟨text, grammar, language, []⟩ with tokens := w.L }).language
          fuel
          ((applyHooks ah { applyHooks bh ⟨text, grammar, language, []⟩ with
              tokens := w.L }).tokens.map (encodeE fuel))))) := by
  cases henv : (applyHooks bh ⟨text, grammar, language, []⟩).grammar with
  | none =>
    refine ⟨fun _ => ?_, fun m hm => ⟨rfl, ?_⟩, fun gid w hgid _ => ?_⟩
    · simp only [highlightF, henv]
    · simp only [highlightF, henv] at hm
      exact (Except.error.inj (Option.some.inj hm)).symm
    · exact Option.noConfusion hgid
  | some gid0 =>
    refine ⟨fun hn => ?_, fun m hm => ?_, fun gid w hgid hrun => ?_⟩
    · exact Option.noConfusion hn
    · exfalso
      simp only [highlightF, henv] at hm
      cases hrun : runF H fuel (.tok gid0 (applyHooks bh ⟨text, grammar, language, []⟩).code) with
      | none => rw [hrun] at hm; exact Option.noConfusion hm
      | some w => rw [hrun] at hm; exact Except.noConfusion (Option.some.inj hm)
    · obtain rfl := Option.some.inj hgid
      simp only [highlightF, henv, hrun]

/-- Witness for C9 at concrete inputs: a missing grammar raises the
configuration error, and a present grammar yields the rendered markup. -/
theorem highlight_error_iff_witness :
    (applyHooks [] (⟨"q".data, none, "nolang", []⟩ : HEnv)).grammar = none ∧
    highlightF H8 50 [] [] [] "q".data none "nolang" =
      some (.error (noGrammarMsg "nolang")) ∧
    runF H8 50 (.tok 0 ['x']) = some ⟨[.tokS "a" ['x'] [] 1], none, false⟩ ∧
    highlightF H8 50 [] [] [] ['x'] (some 0) "x" =
      some (.ok "<span class=\"token a\">x</span>") :=
  ⟨rfl,
    (highlight_error_iff H8 50 [] [] [] "q".data none "nolang").1 rfl,
    rfl,
    (highlight_error_iff H8 50 [] [] [] ['x'] (some 0) "x").2.2 0
      ⟨[.tokS "a" ['x'] [] 1], none, false⟩ rfl rfl⟩

/-- C10: highlightText returns the input text unchanged — raising nothing —
whenever no grammar is registered under the requested language name. -/
theorem highlightText_missing_grammar (H : GHeap) (fuel : Nat)
    (bh ah : List (HEnv → HEnv)) (wh : List (WrapEnv → WrapEnv))
    (langs : List (String × Option Nat)) (text : Chars) (language : String)
    (h : lookupLang langs language = none) :
    highlightTextF H fuel bh ah wh langs text language = some (.ok (String.mk text)) := by
  simp only [highlightTextF, h]

/-- Witness for C10: an unregistered language name passes the text through. -/
theorem highlightText_missing_grammar_witness :
    lookupLang [("tsx", some 0)] "nolang" = none ∧
    highlightTextF H8 5 [] [] [] [("tsx", some 0)] "ab".data "nolang" =
      some (.ok "ab") :=
  ⟨rfl, highlightText_missing_grammar H8 5 [] [] [] [("tsx", some 0)] "ab".data "nolang" rfl⟩

/-!  Span-list bookkeeping lemmas for the structural invariants. -/

theorem spans_append (a b : List Elem) : spans (a ++ b) = spans a + spans b := by
  simp [spans]

theorem spans_optStr (s : Chars) : spans (optStr s) = s.length := by
  by_cases h : s = []
  · simp [optStr, h, spans]
  · simp [optStr, h, spans, spanLen]

theorem spans_take_add_drop (L : List Elem) (n : Nat) :
    spans (L.take n) + spans (L.drop n) = spans L := by
  rw [← spans_append, List.take_append_drop]

theorem spans_take_le (L : List Elem) (n : Nat) : spans (L.take n) ≤ spans L := by
  have := spans_take_add_drop L n
  omega

theorem get?_lt {L : List Elem} {i : Nat} {e : Elem} (h : L.get? i = some e) :
    i < L.length := by
  by_contra hn
  rw [List.get?_eq_none.2 (Nat.le_of_not_lt hn)] at h
  exact Option.noConfusion h

theorem spans_take_succ {L : List Elem} {i : Nat} {e : Elem}
    (h : L.get? i = some e) :
    spans (L.take (i+1)) = spans (L.take i) + spanLen e := by
  rw [List.take_succ, spans_append]
  rw [List.get?_eq_getElem?] at h
  simp [h, spans]

theorem head?_drop_eq {L : List Elem} {i : Nat} :
    (L.drop i).head? = L.get? i := by
  rw [List.head?_drop, List.get?_eq_getElem?]

theorem drop_succ_of_drop {L : List Elem} {i : Nat} {e : Elem} {rest : List Elem}
    (h : L.drop i = e :: rest) : L.drop (i+1) = rest := by
  have : L.drop (i+1) = (L.drop i).drop 1 := by
    rw [List.drop_drop]
  rw [this, h]
  rfl

theorem get?_of_drop {L : List Elem} {i : Nat} {e : Elem} {rest : List Elem}
    (h : L.drop i = e :: rest) : L.get? i = some e := by
  rw [← head?_drop_eq, h]
  rfl

theorem noAdj_take {L : List Elem} (h : NoAdjStr L) (n : Nat) : NoAdjStr (L.take n) := by
  unfold NoAdjStr at *
  rw [← List.take_append_drop n L, List.chain'_append] at h
  exact h.1

theorem noAdj_drop {L : List Elem} (h : NoAdjStr L) (n : Nat) : NoAdjStr (L.drop n) := by
  unfold NoAdjStr at *
  rw [← List.take_append_drop n L, List.chain'_append] at h
  exact h.2.1

theorem noAdj_junction {L : List Elem} (h : NoAdjStr L) {i : Nat} {e : Elem}
    (hg : L.get? i = some e) :
    ∀ x ∈ (L.take i).getLast?, ¬(isStrElem x = true ∧ isStrElem e = true) := by
  intro x hx
  unfold NoAdjStr at h
  rw [← List.take_append_drop i L, List.chain'_append] at h
  refine h.2.2 x hx e ?_
  rw [head?_drop_eq, hg]
  rfl

theorem noAdj_pair {L : List Elem} (h : NoAdjStr L) {i : Nat} {e1 e2 : Elem}
    (h1 : L.get? i = some e1) (h2 : L.get? (i+1) = some e2) :
    ¬(isStrElem e1 = true ∧ isStrElem e2 = true) := by
  have hd : NoAdjStr (L.drop i) := noAdj_drop h i
  cases hdrop : L.drop i with
  | nil =>
    rw [← head?_drop_eq, hdrop] at h1
    exact Option.noConfusion h1
  | cons a rest =>
    have ha : a = e1 := by
      have := get?_of_drop hdrop
      rw [this] at h1
      exact Option.some.inj h1
    cases rest with
    | nil =>
      have : L.get? (i+1) = none := by
        rw [← head?_drop_eq, drop_succ_of_drop hdrop]
        rfl
      rw [this] at h2
      exact Option.noConfusion h2
    | cons b rest2 =>
      have hb : b = e2 := by
        have h3 : L.get? (i+1) = some b := by
          rw [← head?_drop_eq, drop_succ_of_drop hdrop]
          rfl
        rw [h3] at h2
        exact Option.some.inj h2
      subst ha hb
      unfold NoAdjStr at hd
      rw [hdrop] at hd
      exact (List.chain'_cons.1 hd).1

theorem notStr_ne_str {e : Elem} (h : isStrElem e = false) (s : Chars) :
    e ≠ .str s := by
  intro he
  subst he
  simp [isStrElem] at h

theorem matchPattern_wf {r : Rule} {pos : Nat} {t : Chars} {m : MatchRes}
    (hwf : RuleWF r) (h : matchPattern r pos t = some m) :
    m.index + m.matched.length ≤ t.length ∧ (r.greedy = true → pos ≤ m.index) := by
  unfold matchPattern at h
  cases hx : r.exec t pos with
  | none => rw [hx] at h; exact Option.noConfusion h
  | some m0 =>
    simp only [hx] at h
    obtain ⟨hb, hlb, hg⟩ := hwf t pos m0 hx
    by_cases hc : r.lookbehind = true ∧ m0.lb ≠ 0
    · rw [if_pos hc] at h
      obtain rfl := Option.some.inj h
      constructor
      · simp only [List.length_drop]
        omega
      · intro hgr
        have := hg hgr
        simp only
        omega
    · rw [if_neg hc] at h
      obtain rfl := Option.some.inj h
      exact ⟨hb, hg⟩

theorem spans_cons (e : Elem) (l : List Elem) : spans (e :: l) = spanLen e + spans l := by
  simp [spans]

/-- What the `removeCount` loop guarantees: the end offset accounts for the
consumed spans, the count stays within the list, the loop only stops before
`to` when the list is exhausted, and the node after the consumed range —
when it exists — is not a plain string. -/
theorem consume_spec (toOff : Nat) :
    ∀ (l : List Elem) (p rc q : Nat), consume l toOff p = (rc, q) →
      q = p + spans (l.take rc) ∧ rc ≤ l.length ∧
      (toOff ≤ q ∨ rc = l.length) ∧
      (∀ e, l.get? rc = some e → isStrElem e = false) := by
  intro l
  induction l with
  | nil =>
    intro p rc q h
    simp only [consume, Prod.mk.injEq] at h
    obtain ⟨rfl, rfl⟩ := h
    refine ⟨by simp [spans], Nat.le_refl _, Or.inr rfl, ?_⟩
    intro e he
    simp at he
  | cons e rest ih =>
    intro p rc q h
    by_cases hc : p < toOff ∨ isStrElem e = true
    · cases hr : consume rest toOff (p + spanLen e) with
      | mk c q2 =>
        simp only [consume, if_pos hc, hr, Prod.mk.injEq] at h
        obtain ⟨rfl, rfl⟩ := h
        obtain ⟨ih1, ih2, ih3, ih4⟩ := ih (p + spanLen e) c q2 hr
        refine ⟨?_, by simpa using Nat.succ_le_succ ih2, ?_, ?_⟩
        · rw [List.take_succ_cons, spans_cons]
          omega
        · rcases ih3 with h3 | h3
          · exact Or.inl h3
          · right
            simp [h3]
        · intro e2 he2
          exact ih4 e2 he2
    · simp only [consume, if_neg hc, Prod.mk.injEq] at h
      obtain ⟨rfl, rfl⟩ := h
      push_neg at hc
      refine ⟨by simp [spans], Nat.zero_le _, Or.inl hc.1, ?_⟩
      intro e2 he2
      have : e2 = e := by
        simp at he2
        exact he2.symm ▸ rfl
      subst this
      exact Bool.not_eq_true _ ▸ (by simpa using hc.2)

/-- The first node of the removeCount loop is consumed when it is a string. -/
theorem consume_pos {e : Elem} {rest : List Elem} {toOff p : Nat}
    (hstr : isStrElem e = true) :
    1 ≤ (consume (e :: rest) toOff p).1 := by
  have hc : p < toOff ∨ isStrElem e = true := Or.inr hstr
  simp [consume, if_pos hc]

/-- What the node-locating loop of the greedy branch guarantees: it lands
on the node whose span contains the target offset, and reports that node's
index and exact start offset. -/
theorem findNode_spec :
    ∀ (l : List Elem) (L : List Elem) (i pos tgt i2 pos2 : Nat),
      l = L.drop i → pos = spans (L.take i) → pos ≤ tgt →
      findNode l i pos tgt = some (i2, pos2) →
      pos2 = spans (L.take i2) ∧ i ≤ i2 ∧ pos2 ≤ tgt ∧
        ∃ e, L.get? i2 = some e ∧ tgt < pos2 + spanLen e := by
  intro l
  induction l with
  | nil =>
    intro L i pos tgt i2 pos2 _ _ _ h
    simp [findNode] at h
  | cons e rest ih =>
    intro L i pos tgt i2 pos2 hdrop hpos hle h
    have hg : L.get? i = some e := get?_of_drop hdrop.symm
    by_cases hc : tgt < pos + spanLen e
    · simp only [findNode, if_pos hc, Option.some.injEq, Prod.mk.injEq] at h
      obtain ⟨rfl, rfl⟩ := h
      exact ⟨hpos, Nat.le_refl _, hle, e, hg, hc⟩
    · simp only [findNode, if_neg hc] at h
      obtain ⟨a, b, c, d⟩ := ih L (i+1) (pos + spanLen e) tgt i2 pos2
        (drop_succ_of_drop hdrop.symm).symm
        (by rw [spans_take_succ hg, hpos]) (Nat.le_of_not_lt hc) h
      exact ⟨a, Nat.le_of_succ_le b, c, d⟩

theorem noEmpty_take {L : List Elem} (h : NoEmptyStr L) (n : Nat) :
    NoEmptyStr (L.take n) :=
  fun s hs => h s (List.take_subset n L hs)

theorem noEmpty_drop {L : List Elem} (h : NoEmptyStr L) (n : Nat) :
    NoEmptyStr (L.drop n) :=
  fun s hs => h s (List.drop_subset n L hs)

theorem mem_optStr {s : Chars} {e : Elem} (h : e ∈ optStr s) :
    e = .str s ∧ s ≠ [] := by
  unfold optStr at h
  by_cases hs : s = []
  · rw [if_pos hs] at h
    exact absurd h (List.not_mem_nil e)
  · rw [if_neg hs] at h
    exact ⟨List.mem_singleton.1 h, hs⟩

theorem chain'_optStr (R : Elem → Elem → Prop) (s : Chars) :
    List.Chain' R (optStr s) := by
  unfold optStr
  by_cases hs : s = []
  · rw [if_pos hs]; exact List.chain'_nil
  · rw [if_neg hs]; exact List.chain'_singleton _

theorem getLast?_optStr {s : Chars} {e : Elem} (h : e ∈ (optStr s).getLast?) :
    e = .str s := by
  unfold optStr at h
  by_cases hs : s = []
  · rw [if_pos hs] at h
    simp at h
  · rw [if_neg hs] at h
    simp at h
    exact h.symm

theorem head?_optStr {s : Chars} {e : Elem} (h : e ∈ (optStr s).head?) :
    e = .str s := by
  unfold optStr at h
  by_cases hs : s = []
  · rw [if_pos hs] at h
    simp at h
  · rw [if_neg hs] at h
    simp at h
    exact h.symm

theorem head?_optStr_append {s : Chars} {l : List Elem} {e : Elem}
    (h : e ∈ (optStr s ++ l).head?) : e = .str s ∨ e ∈ l.head? := by
  unfold optStr at h
  by_cases hs : s = []
  · rw [if_pos hs] at h
    exact Or.inr h
  · rw [if_neg hs] at h
    simp at h
    exact Or.inl h.symm

/-- The splice of a successful match preserves the structural invariant and
touches nothing before the match node; the new Token sits at index
`i + (optStr (s.take f)).length` and the prefix spans up to and past it are
exactly the offsets the engine resumes walking at. -/
theorem splice_inv (t : Chars) (L : List Elem) (i pos : Nat) (s : Chars)
    (f rc : Nat) (mlen : Nat) (tokEl : Elem) (s0 : Chars)
    (hInv : Inv t L)
    (hpos : pos = spans (L.take i))
    (hget : L.get? i = some (.str s0))
    (hfm : f + mlen ≤ s.length)
    (hspan : pos + s.length = spans (L.take (i + rc)))
    (hbound : ∀ e, L.get? (i + rc) = some e → isStrElem e = false)
    (htok : isStrElem tokEl = false)
    (htokLen : spanLen tokEl = mlen) :
    Inv t (spliceNodes L i rc s f mlen tokEl) ∧
    (spliceNodes L i rc s f mlen tokEl).take i = L.take i ∧
    spans ((spliceNodes L i rc s f mlen tokEl).take (i + (optStr (s.take f)).length)) =
      pos + (s.take f).length ∧
    (spliceNodes L i rc s f mlen tokEl).get? (i + (optStr (s.take f)).length) = some tokEl ∧
    spans ((spliceNodes L i rc s f mlen tokEl).take (i + (optStr (s.take f)).length + 1)) =
      pos + (s.take f).length + mlen := by
  have hilt : i < L.length := get?_lt hget
  have hlti : (L.take i).length = i := by
    rw [List.length_take]
    omega
  have hbl : (s.take f).length = f := by
    rw [List.length_take]
    omega
  have hal : (s.drop (f + mlen)).length = s.length - (f + mlen) := by
    rw [List.length_drop]
  have hsplit := spans_take_add_drop L (i + rc)
  -- the A ++ tokEl :: X re-association
  have hassoc : spliceNodes L i rc s f mlen tokEl =
      (L.take i ++ optStr (s.take f)) ++
        tokEl :: (optStr (s.drop (f + mlen)) ++ L.drop (i + rc)) := by
    unfold spliceNodes
    rw [List.append_assoc]
  have hAlen : (L.take i ++ optStr (s.take f)).length = i + (optStr (s.take f)).length := by
    rw [List.length_append, hlti]
  have hAspans : spans (L.take i ++ optStr (s.take f)) = pos + (s.take f).length := by
    rw [spans_append, spans_optStr, hpos]
  refine ⟨⟨?_, ?_, ?_⟩, ?_, ?_, ?_, ?_⟩
  · -- span conservation
    unfold spliceNodes
    rw [spans_append, spans_append, spans_cons, spans_append,
      spans_optStr, spans_optStr, htokLen, hbl, hal]
    have h1 : spans (L.take i) = pos := hpos.symm
    have h2 : spans (L.take (i + rc)) ≤ spans L := spans_take_le L (i + rc)
    rw [h1]
    have := hInv.1
    omega
  · -- no adjacent strings
    rw [hassoc]
    have hchain : List.Chain' (fun a b => ¬(isStrElem a = true ∧ isStrElem b = true))
        ((L.take i ++ optStr (s.take f)) ++
          tokEl :: (optStr (s.drop (f + mlen)) ++ L.drop (i + rc))) := by
      rw [List.chain'_append]
      refine ⟨?_, ?_, ?_⟩
      · rw [List.chain'_append]
        refine ⟨noAdj_take hInv.2.1 i, chain'_optStr _ _, ?_⟩
        intro x hx y hy
        have hy2 := head?_optStr hy
        subst hy2
        have hj := noAdj_junction hInv.2.1 hget x hx
        intro hp
        exact hj ⟨hp.1, rfl⟩
      · rw [List.chain'_cons']
        refine ⟨?_, ?_⟩
        · intro y _
          intro hp
          rw [htok] at hp
          exact Bool.noConfusion hp.1
        · rw [List.chain'_append]
          refine ⟨chain'_optStr _ _, noAdj_drop hInv.2.1 (i + rc), ?_⟩
          intro x hx y hy
          have hx2 := getLast?_optStr hx
          subst hx2
          rw [head?_drop_eq] at hy
          have hb2 := hbound y (by simpa using hy)
          intro hp
          rw [hb2] at hp
          exact Bool.noConfusion hp.2
      · intro x hx y hy
        simp at hy
        subst hy
        intro hp
        rw [htok] at hp
        exact Bool.noConfusion hp.2
    exact hchain
  · -- no empty strings (for nonempty text)
    intro ht s2 hs2
    unfold spliceNodes at hs2
    have hne := hInv.2.2 ht
    rcases List.mem_append.1 hs2 with h1 | h1
    · rcases List.mem_append.1 h1 with h2 | h2
      · exact hne s2 (List.take_subset i L h2)
      · obtain ⟨he, hne2⟩ := mem_optStr h2
        intro hc
        apply hne2
        have h5 := Elem.str.inj he
        rw [← h5]
        exact hc
    · rcases List.mem_cons.1 h1 with h3 | h3
      · exact absurd h3.symm (notStr_ne_str htok s2)
      · rcases List.mem_append.1 h3 with h4 | h4
        · obtain ⟨he, hne2⟩ := mem_optStr h4
          intro hc
          apply hne2
          have h5 := Elem.str.inj he
          rw [← h5]
          exact hc
        · exact hne s2 (List.drop_subset (i + rc) L h4)
  · -- the prefix before the match node is untouched
    unfold spliceNodes
    rw [show L.take i ++ optStr (s.take f) ++
        tokEl :: (optStr (s.drop (f + mlen)) ++ L.drop (i + rc)) =
      L.take i ++ (optStr (s.take f) ++
        tokEl :: (optStr (s.drop (f + mlen)) ++ L.drop (i + rc))) from by
        rw [List.append_assoc]]
    exact List.take_left' hlti
  · -- spans up to the token index
    rw [hassoc]
    rw [show (i + (optStr (s.take f)).length) = (L.take i ++ optStr (s.take f)).length from
      hAlen.symm]
    rw [List.take_left]
    exact hAspans
  · -- the token sits at its index
    rw [hassoc]
    rw [show (i + (optStr (s.take f)).length) = (L.take i ++ optStr (s.take f)).length from
      hAlen.symm]
    rw [List.get?_append_right (Nat.le_refl _)]
    simp
  · -- spans up to and including the token
    have hg2 : (spliceNodes L i rc s f mlen tokEl).get?
        (i + (optStr (s.take f)).length) = some tokEl := by
      rw [hassoc]
      rw [show (i + (optStr (s.take f)).length) = (L.take i ++ optStr (s.take f)).length from
        hAlen.symm]
      rw [List.get?_append_right (Nat.le_refl _)]
      simp
    rw [spans_take_succ hg2, htokLen]
    rw [hassoc]
    rw [show (i + (optStr (s.take f)).length) = (L.take i ++ optStr (s.take f)).length from
      hAlen.symm]
    rw [List.take_left]
    rw [hAspans]

theorem presPost_refl (L : List Elem) (k : Nat) : PresPost L k L :=
  ⟨rfl, fun _ _ _ => rfl⟩

theorem take_of_take_le {L1 L2 : List Elem} {a b : Nat} (hab : a ≤ b)
    (h : L1.take b = L2.take b) : L1.take a = L2.take a := by
  have h1 : (L1.take b).take a = (L2.take b).take a := by rw [h]
  rwa [List.take_take, List.take_take, Nat.min_eq_left hab] at h1

theorem get?_eq_of_take_succ {L1 L2 : List Elem} {k : Nat}
    (h : L1.take (k+1) = L2.take (k+1)) : L1.get? k = L2.get? k := by
  have h1 : (L1.take (k+1)).get? k = (L2.take (k+1)).get? k := by rw [h]
  rwa [List.get?_take (Nat.lt_succ_self k), List.get?_take (Nat.lt_succ_self k)] at h1

theorem presPost_trans {L1 L2 L3 : List Elem} {k : Nat}
    (h1 : PresPost L1 k L2) (h2 : PresPost L2 k L3) : PresPost L1 k L3 := by
  refine ⟨h2.1.trans h1.1, ?_⟩
  intro e he hstr
  have t1 := h1.2 e he hstr
  have he2 : L2.get? k = some e := (get?_eq_of_take_succ t1).trans he
  exact (h2.2 e he2 hstr).trans t1

theorem presPost_of_strAt {L L2 : List Elem} {i k : Nat} {s : Chars}
    (hg : L.get? i = some (.str s)) (hik : i ≤ k)
    (h : L2.take k = L.take k) : PresPost L i L2 := by
  refine ⟨take_of_take_le hik h, ?_⟩
  intro e he hf
  rw [hg] at he
  obtain rfl := Option.some.inj he
  simp [isStrElem] at hf

theorem spans_take_drop_add (L : List Elem) (a b : Nat) :
    spans (L.take (a + b)) = spans (L.take a) + spans ((L.drop a).take b) := by
  rw [List.take_add, spans_append]

theorem get?_drop_add (L : List Elem) (a b : Nat) :
    (L.drop a).get? b = L.get? (a + b) := by
  rw [List.get?_drop]

theorem putEntry_mem {es : List (String × Option (List Rule))}
    {kv e : String × Option (List Rule)} (h : e ∈ putEntry es kv) :
    e ∈ es ∨ e = kv := by
  unfold putEntry at h
  by_cases hc : es.any (fun x => x.1 = kv.1) = true
  · rw [if_pos hc] at h
    obtain ⟨x, hx, hxe⟩ := List.mem_map.1 h
    by_cases h2 : x.1 = kv.1
    · rw [if_pos h2] at hxe
      exact Or.inr hxe.symm
    · rw [if_neg h2] at hxe
      exact Or.inl (hxe ▸ hx)
  · rw [if_neg hc] at h
    rcases List.mem_append.1 h with h1 | h1
    · exact Or.inl h1
    · exact Or.inr (List.mem_singleton.1 h1)

theorem foldl_putEntry_mem :
    ∀ (l acc : List (String × Option (List Rule))) (e : String × Option (List Rule)),
      e ∈ l.foldl putEntry acc → e ∈ acc ∨ e ∈ l := by
  intro l
  induction l with
  | nil => intro acc e h; exact Or.inl h
  | cons kv rest ih =>
    intro acc e h
    rcases ih (putEntry acc kv) e h with h1 | h1
    · rcases putEntry_mem h1 with h2 | h2
      · exact Or.inl h2
      · exact Or.inr (h2 ▸ List.mem_cons_self kv rest)
    · exact Or.inr (List.mem_cons_of_mem kv h1)

/-- A well-formed heap只 yields well-formed merged entry lists. -/
theorem tokenizeEntries_wf {H : GHeap} (hwf : HeapWF H) (gid : Nat) :
    EntriesWF (tokenizeEntries H gid) := by
  intro e he rs h2 r hr
  unfold tokenizeEntries at he
  cases hg : H.get? gid with
  | none => simp only [hg] at he; simp at he
  | some g =>
    simp only [hg] at he
    have hmem : g ∈ H := List.get?_mem hg
    cases hrest : g.rest with
    | none =>
      simp only [hrest] at he
      exact hwf g hmem e he rs h2 r hr
    | some rid =>
      simp only [hrest] at he
      cases hr2 : H.get? rid with
      | none =>
        simp only [hr2] at he
        exact hwf g hmem e he rs h2 r hr
      | some rg =>
        simp only [hr2] at he
        rcases foldl_putEntry_mem rg.entries g.entries e he with h3 | h3
        · exact hwf g hmem e h3 rs h2 r hr
        · exact hwf rg (List.get?_mem hr2) e h3 rs h2 r hr

/-- The invariant-preservation induction over the engine: every completed
`matchGrammar` loop keeps the structural invariant of the span list and
leaves the prefix before its start node untouched. -/
theorem engine_inv (H : GHeap) (n : Nat) :
    (∀ t esA es L si sp rm w, EntriesWF esA → EntriesWF es → Inv t L →
      sp = spans (L.take si) →
      runF H n (.mg t esA es L si sp rm) = some w →
      Inv t w.L ∧ PresPost L si w.L) ∧
    (∀ t esA key j rs L si sp rm w, EntriesWF esA → (∀ r ∈ rs, RuleWF r) → Inv t L →
      sp = spans (L.take si) →
      runF H n (.pats t esA key j rs L si sp rm) = some w →
      Inv t w.L ∧ PresPost L si w.L) ∧
    (∀ t esA key j r L i pos rm w, EntriesWF esA → RuleWF r → Inv t L →
      pos = spans (L.take i) →
      runF H n (.walk t esA key j r L i pos rm) = some w →
      Inv t w.L ∧ PresPost L i w.L) ∧
    (∀ t esA key j r L i pos rm s f rc matched w, EntriesWF esA → RuleWF r → Inv t L →
      pos = spans (L.take i) →
      (∃ s0, L.get? i = some (.str s0)) →
      f + matched.length ≤ s.length →
      pos + s.length = spans (L.take (i + rc)) →
      (∀ e, L.get? (i + rc) = some e → isStrElem e = false) →
      runF H n (.splice t esA key j r L i pos rm s f rc matched) = some w →
      Inv t w.L ∧ PresPost L i w.L) := by
  induction n with
  | zero =>
    refine ⟨?_, ?_, ?_, ?_⟩
    · intro t esA es L si sp rm w _ _ _ _ h; simp [runF] at h
    · intro t esA key j rs L si sp rm w _ _ _ _ h; simp [runF] at h
    · intro t esA key j r L i pos rm w _ _ _ _ h; simp [runF] at h
    · intro t esA key j r L i pos rm s f rc matched w _ _ _ _ _ _ _ _ h
      simp [runF] at h
  | succ n ih =>
    obtain ⟨ihmg, ihpats, ihwalk, ihsplice⟩ := ih
    refine ⟨?_, ?_, ?_, ?_⟩
    · -- the token-type key loop
      intro t esA es L si sp rm w hEA hES hInv hsp h
      match es with
      | [] =>
        simp only [runF] at h
        obtain rfl := Option.some.inj h
        exact ⟨hInv, presPost_refl L si⟩
      | (k, none) :: rest =>
        simp only [runF] at h
        exact ihmg t esA rest L si sp rm w hEA
          (fun e he rs h2 r hr => hES e (List.mem_cons_of_mem _ he) rs h2 r hr) hInv hsp h
      | (k, some rs) :: rest =>
        simp only [runF] at h
        cases hp : runF H n (.pats t esA k 0 rs L si sp rm) with
        | none => rw [hp] at h; exact Option.noConfusion h
        | some w1 =>
          simp only [hp] at h
          have hrs : ∀ r ∈ rs, RuleWF r :=
            hES (k, some rs) (List.mem_cons_self _ _) rs rfl
          obtain ⟨hI1, hP1⟩ := ihpats t esA k 0 rs L si sp rm w1 hEA hrs hInv hsp hp
          by_cases hret : w1.ret = true
          · rw [if_pos hret] at h
            obtain rfl := Option.some.inj h
            exact ⟨hI1, hP1⟩
          · rw [if_neg hret] at h
            obtain ⟨hI2, hP2⟩ := ihmg t esA rest w1.L si sp w1.rm w hEA
              (fun e he rs2 h2 r hr => hES e (List.mem_cons_of_mem _ he) rs2 h2 r hr)
              hI1 (hsp.trans (congrArg spans hP1.1).symm) h
            exact ⟨hI2, presPost_trans hP1 hP2⟩
    · -- the pattern loop of one key
      intro t esA key j rs L si sp rm w hEA hRS hInv hsp h
      match rs with
      | [] =>
        simp only [runF] at h
        obtain rfl := Option.some.inj h
        exact ⟨hInv, presPost_refl L si⟩
      | r0 :: rest =>
        simp only [runF] at h
        by_cases hc : causeIs rm (key ++ "," ++ toString j) = true
        · rw [if_pos hc] at h
          obtain rfl := Option.some.inj h
          exact ⟨hInv, presPost_refl L si⟩
        · rw [if_neg hc] at h
          cases hw1 : runF H n (.walk t esA key j r0 L si sp rm) with
          | none => rw [hw1] at h; exact Option.noConfusion h
          | some w1 =>
            simp only [hw1] at h
            have hr0 : RuleWF r0 := hRS r0 (List.mem_cons_self _ _)
            obtain ⟨hI1, hP1⟩ := ihwalk t esA key j r0 L si sp rm w1 hEA hr0 hInv hsp hw1
            by_cases hret : w1.ret = true
            · rw [if_pos hret] at h
              obtain rfl := Option.some.inj h
              exact ⟨hI1, hP1⟩
            · rw [if_neg hret] at h
              obtain ⟨hI2, hP2⟩ := ihpats t esA key (j+1) rest w1.L si sp w1.rm w hEA
                (fun r hr => hRS r (List.mem_cons_of_mem _ hr))
                hI1 (hsp.trans (congrArg spans hP1.1).symm) h
              exact ⟨hI2, presPost_trans hP1 hP2⟩
    · -- the node walk of one rule
      intro t esA key j r L i pos rm w hEA hR hInv hpos h
      simp only [runF] at h
      cases hg : L.get? i with
      | none =>
        simp only [hg] at h
        obtain rfl := Option.some.inj h
        exact ⟨hInv, presPost_refl L i⟩
      | some cur =>
        simp only [hg] at h
        by_cases hb : rmBound rm pos = true
        · rw [if_pos hb] at h
          obtain rfl := Option.some.inj h
          exact ⟨hInv, presPost_refl L i⟩
        · rw [if_neg hb] at h
          by_cases hv : t.length < L.length
          · rw [if_pos hv] at h
            obtain rfl := Option.some.inj h
            exact ⟨hInv, presPost_refl L i⟩
          · rw [if_neg hv] at h
            cases cur with
            | tokS a b c d =>
              simp only [] at h
              obtain ⟨hI1, hP1⟩ := ihwalk t esA key j r L (i+1)
                (pos + spanLen (.tokS a b c d)) rm w hEA hR hInv
                (by rw [spans_take_succ hg, hpos]) h
              exact ⟨hI1, ⟨take_of_take_le (Nat.le_succ i) hP1.1, fun e he _ => hP1.1⟩⟩
            | tokL a b c d =>
              simp only [] at h
              obtain ⟨hI1, hP1⟩ := ihwalk t esA key j r L (i+1)
                (pos + spanLen (.tokL a b c d)) rm w hEA hR hInv
                (by rw [spans_take_succ hg, hpos]) h
              exact ⟨hI1, ⟨take_of_take_le (Nat.le_succ i) hP1.1, fun e he _ => hP1.1⟩⟩
            | str s =>
              simp only [] at h
              by_cases hgr : r.greedy = true
              · rw [if_pos hgr] at h
                cases hm : matchPattern r pos t with
                | none =>
                  simp only [hm] at h
                  obtain rfl := Option.some.inj h
                  exact ⟨hInv, presPost_refl L i⟩
                | some m =>
                  simp only [hm] at h
                  obtain ⟨hmb, hmg⟩ := matchPattern_wf hR hm
                  have hposle : pos ≤ m.index := hmg hgr
                  by_cases hidx : t.length ≤ m.index
                  · rw [if_pos hidx] at h
                    obtain rfl := Option.some.inj h
                    exact ⟨hInv, presPost_refl L i⟩
                  · rw [if_neg hidx] at h
                    cases hfn : findNode (L.drop i) i pos m.index with
                    | none => rw [hfn] at h; exact Option.noConfusion h
                    | some ip =>
                      simp only [hfn] at h
                      obtain ⟨hppos, hile, hple, e2, hge2, hlt2⟩ :=
                        findNode_spec (L.drop i) L i pos m.index ip.1 ip.2 rfl hpos
                          hposle (by rw [hfn])
                      cases hg2 : L.get? ip.1 with
                      | none => rw [hg2] at h; exact Option.noConfusion h
                      | some c2 =>
                        simp only [hg2] at h
                        cases c2 with
                        | tokS a b c d =>
                          simp only [] at h
                          obtain ⟨hI1, hP1⟩ := ihwalk t esA key j r L (ip.1+1)
                            (ip.2 + spanLen (.tokS a b c d)) rm w hEA hR hInv
                            (by rw [spans_take_succ hg2, hppos]) h
                          exact ⟨hI1, presPost_of_strAt hg
                            (Nat.le_trans hile (Nat.le_succ ip.1)) hP1.1⟩
                        | tokL a b c d =>
                          simp only [] at h
                          obtain ⟨hI1, hP1⟩ := ihwalk t esA key j r L (ip.1+1)
                            (ip.2 + spanLen (.tokL a b c d)) rm w hEA hR hInv
                            (by rw [spans_take_succ hg2, hppos]) h
                          exact ⟨hI1, presPost_of_strAt hg
                            (Nat.le_trans hile (Nat.le_succ ip.1)) hP1.1⟩
                        | str s2 =>
                          simp only [] at h
                          -- establish the splice preconditions from the
                          -- consume-loop facts
                          have hcrEq : consume (L.drop ip.1) (m.index + m.matched.length) ip.2 =
                              ((consume (L.drop ip.1) (m.index + m.matched.length) ip.2).1,
                               (consume (L.drop ip.1) (m.index + m.matched.length) ip.2).2) := rfl
                          obtain ⟨hc1, hc2, hc3, hc4⟩ :=
                            consume_spec (m.index + m.matched.length) (L.drop ip.1) ip.2
                              (consume (L.drop ip.1) (m.index + m.matched.length) ip.2).1
                              (consume (L.drop ip.1) (m.index + m.matched.length) ip.2).2 hcrEq
                          have hend : (consume (L.drop ip.1) (m.index + m.matched.length) ip.2).2 =
                              spans (L.take (ip.1 +
                                (consume (L.drop ip.1) (m.index + m.matched.length) ip.2).1)) := by
                            rw [spans_take_drop_add, ← hppos, hc1]
                          have hcrle : (consume (L.drop ip.1) (m.index + m.matched.length) ip.2).2 ≤
                              t.length := by
                            rw [hend, ← hInv.1]
                            exact spans_take_le _ _
                          have hip2le : ip.2 ≤
                              (consume (L.drop ip.1) (m.index + m.matched.length) ip.2).2 := by
                            rw [hc1]; omega
                          have htoOffle : m.index + m.matched.length ≤
                              (consume (L.drop ip.1) (m.index + m.matched.length) ip.2).2 := by
                            rcases hc3 with h3 | h3
                            · exact h3
                            · rw [hc1, h3, List.take_length]
                              have htd : spans (L.take ip.1) + spans (L.drop ip.1) = spans L :=
                                spans_take_add_drop L ip.1
                              rw [← hppos] at htd
                              have hq : spans L = t.length := hInv.1
                              omega
                          have hslen : ((t.drop ip.2).take
                              ((consume (L.drop ip.1) (m.index + m.matched.length) ip.2).2 - ip.2)).length =
                              (consume (L.drop ip.1) (m.index + m.matched.length) ip.2).2 - ip.2 := by
                            rw [List.length_take, List.length_drop]
                            omega
                          obtain ⟨hI1, hP1⟩ := ihsplice t esA key j r L ip.1 ip.2 rm
                            ((t.drop ip.2).take
                              ((consume (L.drop ip.1) (m.index + m.matched.length) ip.2).2 - ip.2))
                            (m.index - ip.2)
                            (consume (L.drop ip.1) (m.index + m.matched.length) ip.2).1
                            m.matched w hEA hR hInv hppos ⟨s2, hg2⟩
                            (by rw [hslen]; omega)
                            (by rw [hslen, hend]; omega)
                            (fun e he => hc4 e ((get?_drop_add L ip.1 _).trans he)) h
                          exact ⟨hI1, presPost_of_strAt hg hile hP1.1⟩
              · rw [if_neg hgr] at h
                cases hm : matchPattern r 0 s with
                | none =>
                  simp only [hm] at h
                  obtain ⟨hI1, hP1⟩ := ihwalk t esA key j r L (i+1)
                    (pos + s.length) rm w hEA hR hInv
                    (by rw [spans_take_succ hg, hpos]; rfl) h
                  exact ⟨hI1, presPost_of_strAt hg (Nat.le_succ i) hP1.1⟩
                | some m =>
                  simp only [hm] at h
                  obtain ⟨hmb, _⟩ := matchPattern_wf hR hm
                  have hbound : ∀ e, L.get? (i + 1) = some e → isStrElem e = false := by
                    intro e he
                    have hpair := noAdj_pair hInv.2.1 hg he
                    cases hstr : isStrElem e with
                    | false => rfl
                    | true => exact absurd ⟨rfl, hstr⟩ hpair
                  obtain ⟨hI1, hP1⟩ := ihsplice t esA key j r L i pos rm s m.index 1
                    m.matched w hEA hR hInv hpos ⟨s, hg⟩ hmb
                    (by rw [spans_take_succ hg, hpos]; rfl) hbound h
                  exact ⟨hI1, hP1⟩
    · -- the splice of a successful match
      intro t esA key j r L i pos rm s f rc matched w hEA hR hInv hpos hget hfm hspan hbound h
      obtain ⟨s0, hg0⟩ := hget
      simp only [runF] at h
      have hmain : ∀ tokEl, isStrElem tokEl = false → spanLen tokEl = matched.length →
          (if 1 < rc then
            match runF H n (.mg t esA esA (spliceNodes L i rc s f matched.length tokEl)
                (i + (optStr (s.take f)).length) (pos + (s.take f).length)
                (some (key ++ "," ++ toString j, pos + s.length))) with
            | none => none
            | some w1 =>
              runF H n (.walk t esA key j r w1.L (i + (optStr (s.take f)).length + 1)
                (pos + (s.take f).length + matched.length)
                (match w1.rm with
                  | some cr2 => bumpReach (bumpReach rm (pos + s.length)) cr2.2
                  | none => bumpReach rm (pos + s.length)))
          else
            runF H n (.walk t esA key j r (spliceNodes L i rc s f matched.length tokEl)
              (i + (optStr (s.take f)).length + 1)
              (pos + (s.take f).length + matched.length)
              (bumpReach rm (pos + s.length)))) = some w →
          Inv t w.L ∧ PresPost L i w.L := by
        intro tokEl htok htokLen hh
        obtain ⟨hIs, hTake, hSp1, hGet, hSp2⟩ := splice_inv t L i pos s f rc
          matched.length tokEl s0 hInv hpos hg0 hfm hspan hbound htok htokLen
        by_cases hrc : 1 < rc
        · rw [if_pos hrc] at hh
          cases hmg2 : runF H n (.mg t esA esA (spliceNodes L i rc s f matched.length tokEl)
              (i + (optStr (s.take f)).length) (pos + (s.take f).length)
              (some (key ++ "," ++ toString j, pos + s.length))) with
          | none => rw [hmg2] at hh; exact Option.noConfusion hh
          | some w1 =>
            simp only [hmg2] at hh
            obtain ⟨hI1, hP1⟩ := ihmg t esA esA (spliceNodes L i rc s f matched.length tokEl)
              (i + (optStr (s.take f)).length) (pos + (s.take f).length)
              (some (key ++ "," ++ toString j, pos + s.length)) w1 hEA hEA hIs hSp1.symm hmg2
            have hkeep : w1.L.take (i + (optStr (s.take f)).length + 1) =
                (spliceNodes L i rc s f matched.length tokEl).take
                  (i + (optStr (s.take f)).length + 1) :=
              hP1.2 tokEl hGet htok
            obtain ⟨hI2, hP2⟩ := ihwalk t esA key j r w1.L
              (i + (optStr (s.take f)).length + 1)
              (pos + (s.take f).length + matched.length) _ w hEA hR hI1
              (by rw [← hSp2, ← hkeep]) hh
            refine ⟨hI2, presPost_of_strAt hg0 (Nat.le_refl i) ?_⟩
            have e1 : w.L.take (i + (optStr (s.take f)).length + 1) =
                w1.L.take (i + (optStr (s.take f)).length + 1) := hP2.1
            have e2 : w.L.take i = w1.L.take i :=
              take_of_take_le (by omega) e1
            have e3 : w1.L.take i =
                (spliceNodes L i rc s f matched.length tokEl).take i :=
              take_of_take_le (by omega) hP1.1
            rw [e2, e3, hTake]
        · rw [if_neg hrc] at hh
          obtain ⟨hI1, hP1⟩ := ihwalk t esA key j r
            (spliceNodes L i rc s f matched.length tokEl)
            (i + (optStr (s.take f)).length + 1)
            (pos + (s.take f).length + matched.length)
            (bumpReach rm (pos + s.length)) w hEA hR hIs hSp2.symm hh
          refine ⟨hI1, presPost_of_strAt hg0 (Nat.le_refl i) ?_⟩
          have e2 : w.L.take i =
              (spliceNodes L i rc s f matched.length tokEl).take i :=
            take_of_take_le (by omega) hP1.1
          rw [e2, hTake]
      cases hins : r.inside with
      | none =>
        simp only [hins] at h
        exact hmain (.tokS key matched r.als matched.length) rfl rfl h
      | some rid =>
        simp only [hins] at h
        cases hct : runF H n (.tok rid matched) with
        | none => rw [hct] at h; exact Option.noConfusion h
        | some wc =>
          simp only [hct] at h
          exact hmain (.tokL key wc.L r.als matched.length) rfl rfl h

/-- The plaintext-only registry is trivially well formed. -/
theorem H0_wf : HeapWF H0 := by
  intro g hg e he
  simp [H0] at hg
  subst hg
  simp at he

/-- C1: Length conservation — for every well-formed grammar heap and every
text, the elements of a completed tokenization sum to the text's length: a
plain string contributes its string length and a Token its `length` field
(the length of the original matched text). -/
theorem tokenize_length_conservation (H : GHeap) (fuel gid : Nat) (t : Chars)
    (S : List Elem) (hwf : HeapWF H) (h : tokenizeF H fuel gid t = some S) :
    spans S = t.length := by
  unfold tokenizeF at h
  cases fuel with
  | zero => simp [runF] at h
  | succ n =>
    simp only [runF] at h
    cases hmg : runF H n (.mg t (tokenizeEntries H gid) (tokenizeEntries H gid)
        [.str t] 0 0 none) with
    | none => rw [hmg] at h; exact Option.noConfusion h
    | some w =>
      simp only [hmg] at h
      obtain rfl := Option.some.inj h
      have hEnt := tokenizeEntries_wf hwf gid
      have hInv0 : Inv t [.str t] := by
        refine ⟨by simp [spans, spanLen], List.chain'_singleton _, ?_⟩
        intro ht s hs
        rw [List.mem_singleton] at hs
        obtain rfl := Elem.str.inj hs
        exact ht
      obtain ⟨hI, _⟩ := (engine_inv H n).1 t (tokenizeEntries H gid)
        (tokenizeEntries H gid) [.str t] 0 0 none w hEnt hEnt hInv0 rfl hmg
      exact hI.1

/-- Witness for C1 on a concrete heap and text. -/
theorem tokenize_length_conservation_witness :
    HeapWF H0 ∧ tokenizeF H0 10 0 ['a'] = some [.str ['a']] ∧
    spans [Elem.str ['a']] = ['a'].length :=
  ⟨H0_wf, rfl, tokenize_length_conservation H0 10 0 ['a'] [.str ['a']] H0_wf rfl⟩

/-- C2: TokenStream structural invariant — a completed tokenization never
contains two adjacent plain-string elements and no empty-string element,
and tokenizing the empty text returns exactly the single-element stream
[""]: the safety valve fires before any matching on empty input, so the
initial node survives untouched. -/
theorem tokenize_stream_invariants (H : GHeap) (fuel gid : Nat) (t : Chars)
    (S : List Elem) (hwf : HeapWF H) (h : tokenizeF H fuel gid t = some S) :
    NoAdjStr S ∧ (t = [] → S = [.str []]) ∧
    (t ≠ [] → ∀ s, Elem.str s ∈ S → s ≠ []) := by
  unfold tokenizeF at h
  cases fuel with
  | zero => simp [runF] at h
  | succ n =>
    simp only [runF] at h
    cases hmg : runF H n (.mg t (tokenizeEntries H gid) (tokenizeEntries H gid)
        [.str t] 0 0 none) with
    | none => rw [hmg] at h; exact Option.noConfusion h
    | some w =>
      simp only [hmg] at h
      obtain rfl := Option.some.inj h
      have hEnt := tokenizeEntries_wf hwf gid
      have hInv0 : Inv t [.str t] := by
        refine ⟨by simp [spans, spanLen], List.chain'_singleton _, ?_⟩
        intro ht s hs
        rw [List.mem_singleton] at hs
        obtain rfl := Elem.str.inj hs
        exact ht
      obtain ⟨hI, _⟩ := (engine_inv H n).1 t (tokenizeEntries H gid)
        (tokenizeEntries H gid) [.str t] 0 0 none w hEnt hEnt hInv0 rfl hmg
      refine ⟨hI.2.1, ?_, hI.2.2⟩
      intro ht
      subst ht
      exact ((valve_unchanged H n).1 [] (tokenizeEntries H gid) (tokenizeEntries H gid)
        [.str []] 0 0 none w hmg (by decide)).1

/-- Witness for C2 on a concrete heap and text. -/
theorem tokenize_stream_invariants_witness :
    HeapWF H0 ∧ tokenizeF H0 10 0 ['a'] = some [.str ['a']] ∧
    (NoAdjStr [Elem.str ['a']] ∧
      (['a'] = ([] : Chars) → [Elem.str ['a']] = [.str []]) ∧
      (['a'] ≠ ([] : Chars) → ∀ s, Elem.str s ∈ [Elem.str ['a']] → s ≠ [])) :=
  ⟨H0_wf, rfl, tokenize_stream_invariants H0 10 0 ['a'] [.str ['a']] H0_wf rfl⟩

end PrismCode
